import Mathlib

/-!
Verification of the benchmark execution engine of
`src/SortAlgorithmTester/src/main/cpp/SortAlgorithmTester.cpp`.

Shallow embedding conventions:
  * C++ `std::vector<int>` becomes `List Int`; machine `int` is modelled as the
    unbounded `Int` (no claim under scrutiny exercises 32-bit wrap-around).
  * C++ integer division and remainder truncate toward zero, so they are
    embedded as `Int.tdiv` / `Int.tmod`.
  * Code whose C++ behaviour is undefined (array index out of bounds,
    `rand() % 0`, dereferencing `std::max_element` of an empty range,
    the effectively endless loop produced by an unsigned `size() - 1`
    underflow, unbounded recursion) is modelled by `Option` / `Except`
    with `none` / a distinguished error standing for the undefined or
    diverging execution.
  * C arrays that the code indexes arbitrarily are modelled as total
    functions (`Int → Int`) together with a pointwise update `upd`.
  * The C library pseudo-random source is deterministic: after `srand(seed)`
    the t-th call of `rand()` returns a value depending only on `seed` and
    `t`.  It is modelled by a stream parameter `randOf : Nat → Nat → Int`
    (seed ↦ call index ↦ value) threaded by an explicit call counter.
-/

namespace SortTester

/-- Pointwise update of a function-modelled C array. -/
def upd {β : Type} (f : Int → β) (i : Int) (x : β) : Int → β :=
  fun j => if j = i then x else f j

/-- The abnormal outcomes of the program: the three `std::domain_error`
throws of the source plus two markers for undefined behaviour. -/
inductive Err where
  | cannotGenerate   -- "cannot generate random number"
  | invalidAlgorithm -- "invalid algorithm!"
  | invalidType      -- "invalid type!"
  | sortingFailed    -- "sorting failed!"
  | moduloByZero     -- undefined behaviour: rand() % 0
  | sortUndefined    -- undefined behaviour inside a sort routine
  deriving DecidableEq

/-- `generateRandomNumber` (lines 19-26).  `r` is the value returned by the
`rand()` call.  C++ `rand() % 0` is undefined behaviour, modelled by the
distinguished error `Err.moduloByZero`; the source only guards `lb > ub`
after widening the bounds. -/
def generateRandomNumber (r lb0 ub0 : Int) (lbIn ubIn : Bool) : Except Err Int :=
  let lb := lb0 + (if lbIn then 0 else 1)
  let ub := ub0 + (if ubIn then 1 else 0)
  if lb > ub then .error .cannotGenerate
  else if ub - lb = 0 then .error .moduloByZero
  else .ok (lb + r.tmod (ub - lb))

/-- The draw loop of `generateRandomSequence` (lines 30-32): one `rand()`
call per element, threading the call counter `pos`. -/
def generateRandomDraws (lb ub : Int) (randS : Nat → Int) :
    Nat → Nat → Except Err (List Int × Nat)
  | 0, pos => .ok ([], pos)
  | n + 1, pos =>
    match generateRandomNumber (randS pos) lb ub true true with
    | .error e => .error e
    | .ok x =>
      match generateRandomDraws lb ub randS n (pos + 1) with
      | .error e => .error e
      | .ok (l, pos2) => .ok (x :: l, pos2)

/-- `generateRandomSequence` (lines 28-34).  Note `std::vector<int> result{size}`
uses the initializer-list constructor: the vector starts as the one-element
sequence `[size]`, and the loop appends `size` further elements. -/
def generateRandomSequence (lb ub size : Int) (randS : Nat → Int) (pos : Nat) :
    Except Err (List Int × Nat) :=
  match generateRandomDraws lb ub randS size.toNat pos with
  | .error e => .error e
  | .ok (l, pos2) => .ok (size :: l, pos2)

/-- `generateSameSequence` (lines 36-43): one draw, replicated; the vector
again starts as `[size]` because of the brace initialization. -/
def generateSameSequence (lb ub size : Int) (randS : Nat → Int) (pos : Nat) :
    Except Err (List Int × Nat) :=
  match generateRandomNumber (randS pos) lb ub true true with
  | .error e => .error e
  | .ok x => .ok (size :: List.replicate size.toNat x, pos + 1)

/-- `generateSortedSequence` (lines 45-51); `std::vector<int> result{size}`
contributes the leading element `size`. -/
def generateSortedSequence (lb size : Int) : List Int :=
  size :: (List.range size.toNat).map fun (i : Nat) => lb + (i : Int)

/-- `generateReverseSortedSequence` (lines 53-59). -/
def generateReverseSortedSequence (ub size : Int) : List Int :=
  size :: (List.range size.toNat).map fun (i : Nat) => ub - (i : Int)

/-- The sequence-type dispatch of `main` (lines 324-334). -/
def generateSequence (ty : String) (lb ub size : Int) (randS : Nat → Int) (pos : Nat) :
    Except Err (List Int × Nat) :=
  if ty = "RANDOM" then generateRandomSequence lb ub size randS pos
  else if ty = "SAME" then generateSameSequence lb ub size randS pos
  else if ty = "SORTED" then .ok (generateSortedSequence lb size, pos)
  else if ty = "REVERSESORTED" then .ok (generateReverseSortedSequence ub size, pos)
  else .error .invalidType

/-- The loop body of `ISortAlgorithm::validateSequence` (lines 68-82).
The C++ code initializes `bool first = true` and never assigns it again,
so `first` is passed through unchanged; the comparison branch is dead code.
`previous` is written before it could be read, so its initial value is
irrelevant. -/
def validateSequenceLoop : List Int → Int → Bool → Bool
  | [], _, _ => true
  | v :: rest, previous, first =>
    if first then validateSequenceLoop rest v first
    else if v < previous then false
    else validateSequenceLoop rest v first

/-- `ISortAlgorithm::validateSequence` (lines 68-82). -/
def validateSequence (s : List Int) : Bool :=
  validateSequenceLoop s 0 true

namespace BubbleSort

/-- The inner-loop body of `BubbleSort::sort` (lines 96-100): conditional
exchange of positions `i` and `j`. -/
def swapStep (s : List Int) (i j : Nat) : List Int :=
  if s.getD i 0 > s.getD j 0 then (s.set i (s.getD j 0)).set j (s.getD i 0)
  else s

/-- The inner loop `for (j = i+1; j < sequence.size(); ++j)` (line 95);
`List.set` preserves length, so the fresh reads of `sequence.size()` all
return `n`. -/
def inner (n i : Nat) (s : List Int) : List Int :=
  (List.range (n - (i + 1))).foldl (fun t k => swapStep t i (i + 1 + k)) s

/-- The outer loop of `BubbleSort::sort` (line 94). -/
def sortLoops (s : List Int) : List Int :=
  (List.range (s.length - 1)).foldl (fun t i => inner t.length i t) s

/-- `BubbleSort::sort` (lines 93-104).  For an empty sequence the bound
`sequence.size() - 1` underflows to `SIZE_MAX` and the signed counter `i`
eventually overflows: undefined behaviour, modelled as `none`. -/
def sort (s : List Int) : Option (List Int) :=
  if s.length = 0 then none else some (sortLoops s)

end BubbleSort

namespace MergeSort

/-- The three while loops of `MergeSort::merge` (lines 241-266): merge two
runs, preferring the left on ties. -/
def mergeLists : List Int → List Int → List Int
  | [], r => r
  | a :: l, [] => a :: l
  | a :: l, b :: r =>
    if a ≤ b then a :: mergeLists l (b :: r)
    else b :: mergeLists (a :: l) r

/-- `MergeSort::merge` (lines 221-267): copy `s[left..middle]` and
`s[middle+1..right]` into temporaries and write the merge back starting at
index `left`. -/
def mergeAt (s : List Int) (left middle right : Int) : List Int :=
  let l := ((s.drop left.toNat).take (middle - left + 1).toNat)
  let r := ((s.drop (middle + 1).toNat).take (right - middle).toNat)
  let m := mergeLists l r
  s.take left.toNat ++ m ++ s.drop (left.toNat + m.length)

/-- `MergeSort::_merge` (lines 269-280), with a fuel argument standing for
the call stack.  The base-case test is the source's `if (right > left)
return;`: the function returns immediately on every non-trivial range and
recurses forever (into `_merge(s, left, left)`) whenever `right ≤ left`;
exhausted fuel (`none`) models that unbounded recursion. -/
def mergeRec : Nat → List Int → Int → Int → Option (List Int)
  | 0, _, _, _ => none
  | fuel + 1, s, left, right =>
    if right > left then some s
    else
      let middle := left + (right - left).tdiv 2
      match mergeRec fuel s left middle with
      | none => none
      | some s1 =>
        match mergeRec fuel s1 (middle + 1) right with
        | none => none
        | some s2 => some (mergeAt s2 left middle right)

/-- `MergeSort::sort` (lines 216-219): `_merge(sequence, 0, sequence.size())`.
Any positive fuel suffices when the recursion terminates, and
`mergeRec_zero_zero` below shows the `right ≤ left` case is `none` at every
fuel, so the particular fuel value is immaterial. -/
def sort (s : List Int) : Option (List Int) :=
  mergeRec (s.length + 1) s 0 s.length

end MergeSort

namespace CountSort

/-- Conversion of an `int` to the signed `char` cells of the stack buffer
`char output[sequence.size()]` (line 119): two's-complement wrap into
`[-128, 128)`. -/
def charTrunc (x : Int) : Int := (x + 128) % 256 - 128

/-- `CountSort::sort` (lines 114-161) for a configured bound `max`:
histogram into `int count[max+1]` (zeroed by `memset`), in-place running
sums `for (i = 1; i <= max; ++i) count[i] += count[i-1]`, then forward
placement `output[count[v]-1] = v; --count[v]` — but through the `char`
buffer `output`, so every placed value is truncated by `charTrunc`.  The
two stack arrays are modelled as lists indexed by position; the
uninitialized `char output[sequence.size()]` cells are arbitrary (0 here).
An element outside `[0, max]` indexes `count` out of bounds: undefined
behaviour, modelled as `none`. -/
def sort (max : Int) (s : List Int) : Option (List Int) :=
  if ∀ v ∈ s, 0 ≤ v ∧ v ≤ max then
    let count0 : List Int := List.replicate (max.toNat + 1) 0
    let count1 := s.foldl (fun c v => c.set v.toNat (c.getD v.toNat 0 + 1)) count0
    let count2 := (List.range max.toNat).foldl
      (fun c k => c.set (k + 1) (c.getD (k + 1) 0 + c.getD k 0)) count1
    let st := s.foldl
      (fun (p : List Int × List Int) v =>
        (p.1.set v.toNat (p.1.getD v.toNat 0 - 1),
         p.2.set (p.1.getD v.toNat 0 - 1).toNat (charTrunc v)))
      (count2, List.replicate s.length 0)
    some st.2
  else none

end CountSort

namespace RadixSort

/-- The digit selector `(sequence[i]/exp) % 10` of `RadixSort::countSort`
(lines 188, 199, 200), with C++ truncating division. -/
def digit (exp v : Int) : Int := (v.tdiv exp).tmod 10

/-- The histogram loop of `RadixSort::countSort` (lines 187-189). -/
def hist (exp : Int) (s : List Int) : Int → Int :=
  s.foldl (fun c v => upd c (digit exp v) (c (digit exp v) + 1)) fun _ => 0

/-- The running-sum loop `for (i = 1; i < 10; i++) count[i] += count[i-1]`
(lines 193-195). -/
def runningSums (c : Int → Int) : Int → Int :=
  (List.range 9).foldl
    (fun c (k : Nat) => upd c ((k : Int) + 1) (c ((k : Int) + 1) + c (k : Int))) c

/-- The backward placement loop `for (i = sequence.size()-1; i >= 0; i--)`
(lines 198-201): `output[count[d]-1] = v; count[d]--` with `d` the digit of
`v`.  `List.foldr` threads the state from the last element to the first,
exactly the loop's order. -/
def place (exp : Int) (s : List Int) (c : Int → Int) (out : Int → Int) :
    (Int → Int) × (Int → Int) :=
  s.foldr
    (fun v p =>
      (upd p.1 (digit exp v) (p.1 (digit exp v) - 1),
       upd p.2 (p.1 (digit exp v) - 1) v))
    (c, out)

/-- `RadixSort::countSort` (lines 182-208): one stable counting-sort pass on
the digit at `exp`. -/
def countSort (s : List Int) (exp : Int) : List Int :=
  let c := runningSums (hist exp s)
  let st := place exp s c fun _ => 0
  (List.range s.length).map fun (i : Nat) => st.2 (i : Int)

/-- The pass loop `for (exp = 1; m/exp > 0; exp *= 10)` of `RadixSort::sort`
(lines 176-178). -/
def loop (m exp : Int) (s : List Int) : List Int :=
  if h : 0 < m.tdiv exp then loop m (exp * 10) (countSort s exp) else s
termination_by (m.tdiv exp).natAbs
decreasing_by
  have hne : m.tdiv exp ≠ 0 := ne_of_gt h
  have h1 : (m.tdiv exp).natAbs = m.natAbs / exp.natAbs := Int.natAbs_tdiv m exp
  have h2 : (m.tdiv (exp * 10)).natAbs = m.natAbs / (exp.natAbs * 10) := by
    rw [Int.natAbs_tdiv, Int.natAbs_mul]
    rfl
  have h3 : m.natAbs / (exp.natAbs * 10) = m.natAbs / exp.natAbs / 10 :=
    (Nat.div_div_eq_div_mul _ _ _).symm
  have hpos : 0 < m.natAbs / exp.natAbs := by
    rw [← h1]
    exact Int.natAbs_pos.mpr hne
  rw [h1, h2, h3]
  exact Nat.div_lt_self hpos (by norm_num)

/-- `RadixSort::sort` (lines 169-180).  `*max_element(begin, end)` on an
empty range dereferences the end iterator: undefined behaviour, modelled as
`none`. -/
def sort (s : List Int) : Option (List Int) :=
  match s.max? with
  | none => none
  | some m => some (loop m 1 s)

/-- Proof vocabulary: the elements of `s` whose digit at `exp` is `d`, in
their original order. -/
def bucket (exp : Int) (s : List Int) (d : Int) : List Int :=
  s.filter fun v => digit exp v = d

/-- Proof vocabulary: the ten digit buckets concatenated in digit order —
the intended outcome of one stable counting-sort pass. -/
def buckets (exp : Int) (s : List Int) : List Int :=
  (List.range 10).flatMap fun d => bucket exp s (d : Int)

/-- Proof vocabulary: the size of one digit bucket. -/
def cntB (exp : Int) (s : List Int) (d : Int) : Nat :=
  (bucket exp s d).length

/-- Proof vocabulary: the number of elements of `s` whose digit is `< d`,
i.e. the start offset of block `d` in `buckets`. -/
def preB (exp : Int) (s : List Int) : Nat → Nat
  | 0 => 0
  | d + 1 => preB exp s d + cntB exp s (d : Int)

/-- Proof vocabulary: inclusive running sum `c 0 + c 1 + ⋯ + c d` of a
function-modelled counter array. -/
def cumul (c : Int → Int) : Nat → Int
  | 0 => c 0
  | d + 1 => cumul c d + c ((d : Int) + 1)

/-- Proof vocabulary: the running-sum loop truncated after `t` steps;
`runningSums c = sumFold c 9`. -/
def sumFold (c : Int → Int) (t : Nat) : Int → Int :=
  (List.range t).foldl
    (fun c (k : Nat) => upd c ((k : Int) + 1) (c ((k : Int) + 1) + c (k : Int))) c

end RadixSort

/-- The algorithm objects `main` can construct (lines 300-311). -/
inductive AlgChoice where
  | bubble
  | merge
  | count (max : Int)
  | radix
  deriving DecidableEq

/-- The algorithm-dispatch chain of `main` (lines 300-311): note that
`COUNTSORT` is constructed as `new CountSort{_upperBound}`. -/
def chooseAlgorithm (algorithm : String) (upperBound : Int) : Option AlgChoice :=
  if algorithm = "BUBBLESORT" then some .bubble
  else if algorithm = "MERGESORT" then some .merge
  else if algorithm = "COUNTSORT" then some (.count upperBound)
  else if algorithm = "RADIXSORT" then some .radix
  else none

/-- Dispatch of `alg->sort(sequence)` (line 338). -/
def AlgChoice.run : AlgChoice → List Int → Option (List Int)
  | .bubble, s => BubbleSort.sort s
  | .merge, s => MergeSort.sort s
  | .count max, s => CountSort.sort max s
  | .radix, s => RadixSort.sort s

/-- The configuration values `main` receives from the CLI layer
(lines 10-17); the seed is the `unsigned long` passed to `srand`. -/
structure Config where
  sequenceSize : Int
  algorithm : String
  sequenceType : String
  seed : Nat
  lowerBound : Int
  upperBound : Int
  runs : Int

/-- The benchmark loop of `main` (lines 321-347): per remaining run,
generate, sort, validate (throwing "sorting failed!" on a `false`), and
append the row `run,elapsed`.  `times run` is the elapsed wall-clock
interval of run `run`, already truncated to whole microseconds; the clock
itself is outside the embedding.  An `Except.error` models the
corresponding abort of the process. -/
def mainRows (cfg : Config) (alg : AlgChoice) (randS : Nat → Int)
    (times : Nat → Nat) : Nat → Nat → Nat → Except Err (List String)
  | 0, _, _ => .ok []
  | n + 1, run, pos =>
    match generateSequence cfg.sequenceType cfg.lowerBound cfg.upperBound
        cfg.sequenceSize randS pos with
    | .error e => .error e
    | .ok (seq, pos2) =>
      match alg.run seq with
      | none => .error .sortUndefined
      | some sorted =>
        if validateSequence sorted then
          match mainRows cfg alg randS times n (run + 1) pos2 with
          | .error e => .error e
          | .ok rest => .ok ((toString run ++ "," ++ toString (times run)) :: rest)
        else .error .sortingFailed

/-- `main` after CLI parsing (lines 296-349): seed the generator, pick the
algorithm, write the header line `run,time`, then run the loop.  The file
content on successful completion is the returned list of lines. -/
def mainOutput (randOf : Nat → Nat → Int) (cfg : Config) (times : Nat → Nat) :
    Except Err (List String) :=
  match chooseAlgorithm cfg.algorithm cfg.upperBound with
  | none => .error .invalidAlgorithm
  | some alg =>
    match mainRows cfg alg (randOf cfg.seed) times cfg.runs.toNat 0 0 with
    | .error e => .error e
    | .ok rows => .ok ("run,time" :: rows)

/-- The per-run generated input sequences of the benchmark loop, in run
order (lines 321-334).  None of the sort routines calls `rand()`, so the
loop's pseudo-random call order is exactly the generators' call order; a
generation failure aborts the series. -/
def runSequences (cfg : Config) (randS : Nat → Int) :
    Nat → Nat → List (List Int)
  | 0, _ => []
  | n + 1, pos =>
    match generateSequence cfg.sequenceType cfg.lowerBound cfg.upperBound
        cfg.sequenceSize randS pos with
    | .error _ => []
    | .ok (seq, pos2) => seq :: runSequences cfg randS n pos2

/-- The full series of generated sequences of one execution of `main`. -/
def runSeries (randOf : Nat → Nat → Int) (cfg : Config) : List (List Int) :=
  runSequences cfg (randOf cfg.seed) cfg.runs.toNat 0

/-- Proof vocabulary: the configured sequence type is one the loop accepts,
with ordered bounds whenever the policy samples from the value range. -/
def policyValid (cfg : Config) : Prop :=
  cfg.sequenceType = "SORTED" ∨ cfg.sequenceType = "REVERSESORTED" ∨
    ((cfg.sequenceType = "RANDOM" ∨ cfg.sequenceType = "SAME") ∧
      cfg.lowerBound ≤ cfg.upperBound)

/-- Proof vocabulary: the data rows the benchmark loop is expected to emit
for runs `run`, `run+1`, …, `run+n-1`. -/
def expectedRows (times : Nat → Nat) : Nat → Nat → List String
  | _, 0 => []
  | run, n + 1 =>
    (toString run ++ "," ++ toString (times run)) :: expectedRows times (run + 1) n

/-! ## Basic facts about the embedding -/

theorem upd_self {β : Type} (f : Int → β) (i : Int) (x : β) : upd f i x i = x :=
  if_pos rfl

theorem upd_of_ne {β : Type} (f : Int → β) (i j : Int) (x : β) (h : j ≠ i) :
    upd f i x j = f j :=
  if_neg h

/-- The `first` flag of the validator is never cleared, so the comparison
branch is dead: the loop returns `true` on every input. -/
theorem validateSequenceLoop_first : ∀ (s : List Int) (prev : Int),
    validateSequenceLoop s prev true = true
  | [], _ => rfl
  | v :: rest, _ => validateSequenceLoop_first rest v

theorem validateSequence_true (s : List Int) : validateSequence s = true :=
  validateSequenceLoop_first s 0

/-- `_merge` returns its argument unchanged as soon as `right > left`. -/
theorem MergeSort.mergeRec_of_lt (fuel : Nat) (s : List Int) (left right : Int)
    (h : right > left) : MergeSort.mergeRec (fuel + 1) s left right = some s := by
  simp [MergeSort.mergeRec, h]

/-- `MergeSort::sort` is the identity on every non-empty sequence: the
inverted base-case test makes `_merge(s, 0, n)` return immediately. -/
theorem MergeSort.sort_eq_id (s : List Int) (h : s ≠ []) :
    MergeSort.sort s = some s := by
  have hlen : (0 : Int) < (s.length : Int) := by
    have := List.length_pos.mpr h
    exact_mod_cast this
  exact MergeSort.mergeRec_of_lt s.length s 0 s.length hlen

/-- On a trivial range `_merge(s, l, l)` recurses forever: no fuel value
reaches an answer. -/
theorem MergeSort.mergeRec_self (left : Int) : ∀ (fuel : Nat) (s : List Int),
    MergeSort.mergeRec fuel s left left = none
  | 0, _ => rfl
  | fuel + 1, s => by
    have hmid : left + (left - left).tdiv 2 = left := by
      simp [Int.sub_self]
    simp [MergeSort.mergeRec, hmid, MergeSort.mergeRec_self left fuel s]

/-- `MergeSort::sort` on the empty sequence never terminates. -/
theorem MergeSort.sort_nil : MergeSort.sort [] = none := rfl

theorem BubbleSort.run_isSome (s : List Int) (h : s ≠ []) :
    (AlgChoice.run .bubble s).isSome := by
  simp [AlgChoice.run, BubbleSort.sort, List.length_eq_zero, h]

/-! ## Claims -/

/-- C1: the spec promises that all four strategies return a sorted
permutation of the input; the merge-sort strategy instead returns the
input unchanged (its recursion exits immediately on every non-trivial
range), so `[2, 1]` comes back unsorted. -/
theorem c1_merge_sort_returns_input_unsorted :
    MergeSort.sort [2, 1] = some [2, 1] ∧
      ¬ List.Sorted (· ≤ ·) ([2, 1] : List Int) :=
  ⟨rfl, by decide⟩

/-- C2: the spec says the validator accepts exactly the non-decreasing
sequences; in the code the `first` flag is never cleared, so the validator
also accepts `[1, 0]`, which has an element smaller than its
predecessor. -/
theorem c2_validator_accepts_descending_pair :
    validateSequence [1, 0] = true ∧ ¬ List.Sorted (· ≤ ·) ([1, 0] : List Int) :=
  ⟨rfl, by decide⟩

/-- C3: the spec says `generate(policy, 0, …)` is empty; because
`std::vector<int> result{size}` list-initializes the vector with the single
element `size`, the generated sequence for `size = 0` is `[0]`, of length
1, for the SORTED policy (and correspondingly for the others). -/
theorem c3_generate_size_zero_yields_singleton (randS : Nat → Int) (pos : Nat) :
    generateSequence "SORTED" 0 99 0 randS pos = .ok ([0], pos) ∧
      (generateSortedSequence 0 0).length = 1 :=
  ⟨rfl, rfl⟩

/-- C5: the spec says generation fails with the out-of-range error whenever
`lowerBound > upperBound`; at `lowerBound = upperBound + 1` the widened
guard `lb > ub + 1` does not fire and the code reaches `rand() % 0`,
which is undefined behaviour instead of the promised error. -/
theorem c5_empty_range_reaches_modulo_zero (r : Int) :
    generateRandomNumber r 1 0 true true = .error .moduloByZero ∧
      generateRandomNumber r 1 0 true true ≠ .error .cannotGenerate :=
  ⟨rfl, by intro h; cases h⟩

/-- C7: re-running the same configuration (seed included) against the same
pseudo-random source yields the same generated sequence at every run
index. -/
theorem c7_identical_configs_identical_sequences (randOf : Nat → Nat → Int)
    (cfg1 cfg2 : Config) (h : cfg1 = cfg2) (i : Nat) :
    (runSeries randOf cfg1).get? i = (runSeries randOf cfg2).get? i := by
  rw [h]

theorem c7_identical_configs_identical_sequences_witness :
    (runSeries (fun s t => (s : Int) + t)
        { sequenceSize := 2, algorithm := "BUBBLESORT", sequenceType := "RANDOM",
          seed := 4, lowerBound := 0, upperBound := 9, runs := 3 }).get? 0 =
      (runSeries (fun s t => (s : Int) + t)
        { sequenceSize := 2, algorithm := "BUBBLESORT", sequenceType := "RANDOM",
          seed := 4, lowerBound := 0, upperBound := 9, runs := 3 }).get? 0 :=
  c7_identical_configs_identical_sequences _ _ _ rfl 0

/-- C10: `main` constructs the COUNTSORT strategy with `max` equal to the
configuration's `upperBound`, and counting sort's in-bounds precondition
is exactly that every element lies in `[0, max]`. -/
theorem c10_countsort_max_is_upper_bound :
    (∀ upperBound : Int,
        chooseAlgorithm "COUNTSORT" upperBound = some (.count upperBound)) ∧
      ∀ (max : Int) (s : List Int),
        (CountSort.sort max s).isSome ↔ ∀ v ∈ s, 0 ≤ v ∧ v ≤ max := by
  refine ⟨fun _ => rfl, fun max s => ?_⟩
  by_cases h : ∀ v ∈ s, 0 ≤ v ∧ v ≤ max <;> simp [CountSort.sort, h]

/-! ## The benchmark loop -/

/-- Normal form of `generateRandomNumber` at the only flag combination the
program uses (both bounds inclusive). -/
theorem generateRandomNumber_true_true (r lb ub : Int) :
    generateRandomNumber r lb ub true true =
      if lb > ub + 1 then .error .cannotGenerate
      else if ub + 1 - lb = 0 then .error .moduloByZero
      else .ok (lb + r.tmod (ub + 1 - lb)) := by
  simp [generateRandomNumber]

theorem generateRandomNumber_error_cases (r lb ub : Int) (e : Err)
    (h : generateRandomNumber r lb ub true true = .error e) :
    e = .cannotGenerate ∨ e = .moduloByZero := by
  rw [generateRandomNumber_true_true] at h
  split at h
  · cases h; exact Or.inl rfl
  · split at h
    · cases h; exact Or.inr rfl
    · cases h

theorem generateRandomDraws_error_cases (lb ub : Int) (randS : Nat → Int) :
    ∀ (n pos : Nat) (e : Err),
      generateRandomDraws lb ub randS n pos = .error e →
      e = .cannotGenerate ∨ e = .moduloByZero := by
  intro n
  induction n with
  | zero => intro pos e h; cases h
  | succ n ih =>
    intro pos e h
    simp only [generateRandomDraws] at h
    split at h
    · rename_i e2 hg
      cases h
      exact generateRandomNumber_error_cases _ _ _ _ hg
    · rename_i x hg
      split at h
      · rename_i e2 hd
        cases h
        exact ih _ _ hd
      · cases h

theorem generateSequence_error_cases (ty : String) (lb ub size : Int)
    (randS : Nat → Int) (pos : Nat) (e : Err)
    (h : generateSequence ty lb ub size randS pos = .error e) :
    e = .cannotGenerate ∨ e = .moduloByZero ∨ e = .invalidType := by
  simp only [generateSequence] at h
  split at h
  · simp only [generateRandomSequence] at h
    split at h
    · rename_i e2 hd
      cases h
      rcases generateRandomDraws_error_cases lb ub randS _ _ _ hd with h1 | h1
      · exact Or.inl h1
      · exact Or.inr (Or.inl h1)
    · cases h
  · split at h
    · simp only [generateSameSequence] at h
      split at h
      · rename_i e2 hg
        cases h
        rcases generateRandomNumber_error_cases _ _ _ _ hg with h1 | h1
        · exact Or.inl h1
        · exact Or.inr (Or.inl h1)
      · cases h
    · split at h
      · cases h
      · split at h
        · cases h
        · cases h; exact Or.inr (Or.inr rfl)

/-- C9: the validator returns `true` for every sequence whatsoever (its
`first` flag is never cleared), so the benchmark loop's "sorting failed!"
abort is unreachable: `mainRows` never produces that error, whatever the
configuration, algorithm, random stream, times or run count — even though
the merge-sort strategy leaves its input out of order. -/
theorem c9_sorting_failed_abort_unreachable :
    (∀ s : List Int, validateSequence s = true) ∧
      ∀ (cfg : Config) (alg : AlgChoice) (randS : Nat → Int) (times : Nat → Nat)
        (n run pos : Nat),
        mainRows cfg alg randS times n run pos ≠ .error .sortingFailed := by
  refine ⟨validateSequence_true, ?_⟩
  intro cfg alg randS times n
  induction n with
  | zero => intro run pos h; cases h
  | succ n ih =>
    intro run pos h
    simp only [mainRows] at h
    split at h
    · rename_i e hg
      cases h
      rcases generateSequence_error_cases _ _ _ _ _ _ _ hg with h1 | h1 | h1 <;> cases h1
    · rename_i seq pos2 hg
      split at h
      · cases h
      · rename_i sorted hs
        rw [if_pos (validateSequence_true sorted)] at h
        split at h
        · rename_i e2 hr
          cases h
          exact ih (run + 1) pos2 hr
        · cases h

theorem generateRandomNumber_ok (r lb ub : Int) (h : lb ≤ ub) :
    ∃ x, generateRandomNumber r lb ub true true = .ok x := by
  rw [generateRandomNumber_true_true, if_neg (by omega), if_neg (by omega)]
  exact ⟨_, rfl⟩

theorem generateRandomDraws_ok (lb ub : Int) (h : lb ≤ ub) (randS : Nat → Int) :
    ∀ (n pos : Nat), ∃ l pos2, generateRandomDraws lb ub randS n pos = .ok (l, pos2) := by
  intro n
  induction n with
  | zero => exact fun pos => ⟨[], pos, rfl⟩
  | succ n ih =>
    intro pos
    obtain ⟨x, hx⟩ := generateRandomNumber_ok (randS pos) lb ub h
    obtain ⟨l, pos2, hl⟩ := ih (pos + 1)
    exact ⟨x :: l, pos2, by simp only [generateRandomDraws, hx, hl]⟩

/-- Under a valid policy every generated sequence exists and is non-empty
(it always carries the leading brace-initialization element `size`). -/
theorem generateSequence_ok (ty : String) (lb ub size : Int) (randS : Nat → Int)
    (h : ty = "SORTED" ∨ ty = "REVERSESORTED" ∨
      ((ty = "RANDOM" ∨ ty = "SAME") ∧ lb ≤ ub)) (pos : Nat) :
    ∃ seq pos2, generateSequence ty lb ub size randS pos = .ok (seq, pos2) ∧ seq ≠ [] := by
  rcases h with h | h | ⟨h | h, hle⟩ <;> subst h
  · exact ⟨generateSortedSequence lb size, pos, rfl, by simp [generateSortedSequence]⟩
  · exact ⟨generateReverseSortedSequence ub size, pos, rfl,
      by simp [generateReverseSortedSequence]⟩
  · obtain ⟨l, pos2, hl⟩ := generateRandomDraws_ok lb ub hle randS size.toNat pos
    refine ⟨size :: l, pos2, ?_, by simp⟩
    show generateRandomSequence lb ub size randS pos = _
    simp only [generateRandomSequence, hl]
  · obtain ⟨x, hx⟩ := generateRandomNumber_ok (randS pos) lb ub hle
    refine ⟨size :: List.replicate size.toNat x, pos + 1, ?_, by simp⟩
    show generateSameSequence lb ub size randS pos = _
    simp only [generateSameSequence, hx]

theorem mainRows_ok (cfg : Config) (alg : AlgChoice) (randS : Nat → Int)
    (times : Nat → Nat) (hpol : policyValid cfg)
    (hsort : ∀ s : List Int, s ≠ [] → (AlgChoice.run alg s).isSome) :
    ∀ (n run pos : Nat),
      mainRows cfg alg randS times n run pos = .ok (expectedRows times run n) := by
  intro n
  induction n with
  | zero => intro run pos; rfl
  | succ n ih =>
    intro run pos
    obtain ⟨seq, pos2, hgen, hne⟩ :=
      generateSequence_ok cfg.sequenceType cfg.lowerBound cfg.upperBound
        cfg.sequenceSize randS hpol pos
    obtain ⟨sorted, hs⟩ := Option.isSome_iff_exists.mp (hsort seq hne)
    simp only [mainRows, hgen, hs, if_pos (validateSequence_true sorted), ih,
      expectedRows]

/-- C6: with `runs = 5`, a policy the loop accepts (ordered bounds where
the policy samples), and an algorithm whose sort completes on non-empty
input, the output file is exactly the header `run,time` followed by the
five rows with run indices 0,1,2,3,4 in order, each carrying the
(non-negative) microsecond count of its run. -/
theorem c6_run_series_writes_header_and_indexed_rows
    (randOf : Nat → Nat → Int) (cfg : Config) (times : Nat → Nat) (alg : AlgChoice)
    (halg : chooseAlgorithm cfg.algorithm cfg.upperBound = some alg)
    (hsort : ∀ s : List Int, s ≠ [] → (AlgChoice.run alg s).isSome)
    (hpol : policyValid cfg) (hruns : cfg.runs = 5) :
    mainOutput randOf cfg times =
      .ok ["run,time",
        "0," ++ toString (times 0), "1," ++ toString (times 1),
        "2," ++ toString (times 2), "3," ++ toString (times 3),
        "4," ++ toString (times 4)] := by
  have h5 : cfg.runs.toNat = 5 := by rw [hruns]; rfl
  have hrows := mainRows_ok cfg alg (randOf cfg.seed) times hpol hsort 5 0 0
  simp only [mainOutput, halg, h5, hrows]
  rfl

theorem c6_run_series_writes_header_and_indexed_rows_witness :
    mainOutput (fun _ _ => 0)
      { sequenceSize := 3, algorithm := "BUBBLESORT", sequenceType := "SORTED",
        seed := 0, lowerBound := 0, upperBound := 9, runs := 5 } (fun _ => 7) =
      .ok ["run,time", "0,7", "1,7", "2,7", "3,7", "4,7"] := by
  have h := c6_run_series_writes_header_and_indexed_rows (fun _ _ => 0)
    { sequenceSize := 3, algorithm := "BUBBLESORT", sequenceType := "SORTED",
      seed := 0, lowerBound := 0, upperBound := 9, runs := 5 } (fun _ => 7)
    .bubble rfl (fun s hs => BubbleSort.run_isSome s hs) (Or.inl rfl) rfl
  exact h

set_option maxRecDepth 40000 in
/-- C4: counting sort copies the result through the signed `char` stack
buffer `output`, so even when the caller's precondition holds — every
element in `[0, max]`, here `max = 128` and input `[128]` — the returned
sequence is `[-128]`, which is not a permutation of the input. -/
theorem c4_count_sort_truncates_through_char_buffer :
    CountSort.sort 128 [128] = some [-128] ∧
      ¬ ([-128] : List Int).Perm [128] ∧
      ∀ v ∈ ([128] : List Int), 0 ≤ v ∧ v ≤ 128 :=
  ⟨by decide, by decide, by decide⟩

/-! ## Radix sort -/

namespace RadixSort

theorem digit_eq_emod (e v : Int) (hv : 0 ≤ v) (he : 0 < e) :
    digit e v = v / e % 10 := by
  unfold digit
  rw [Int.tdiv_eq_ediv hv he.le,
    Int.tmod_eq_emod (Int.ediv_nonneg hv he.le) (by norm_num)]

theorem digit_nonneg (e v : Int) (hv : 0 ≤ v) (he : 0 < e) : 0 ≤ digit e v := by
  rw [digit_eq_emod e v hv he]
  exact Int.emod_nonneg _ (by norm_num)

theorem digit_lt_ten (e v : Int) (hv : 0 ≤ v) (he : 0 < e) : digit e v < 10 := by
  rw [digit_eq_emod e v hv he]
  exact Int.emod_lt_of_pos _ (by norm_num)

/-- Splitting a Euclidean remainder at `e * 10` into the remainder at `e`
plus `e` times the base-10 digit of the quotient. -/
theorem emod_mul_ten (v e : Int) (he : 0 < e) :
    v % (e * 10) = v % e + e * (v / e % 10) := by
  have h10 : (0 : Int) < e * 10 := by positivity
  have hq := Int.ediv_add_emod v e
  have hq2 := Int.ediv_add_emod (v / e) 10
  have hr1 : 0 ≤ v % e := Int.emod_nonneg v (ne_of_gt he)
  have hr1' : v % e < e := Int.emod_lt_of_pos v he
  have hr2 : 0 ≤ v / e % 10 := Int.emod_nonneg _ (by norm_num)
  have hr2' : v / e % 10 < 10 := Int.emod_lt_of_pos _ (by norm_num)
  have hmul : e * (v / e % 10) ≤ e * 9 :=
    mul_le_mul_of_nonneg_left (by omega) he.le
  have hmul0 : 0 ≤ e * (v / e % 10) := mul_nonneg he.le hr2
  have key : v % e + e * (v / e % 10) + e * 10 * (v / e / 10) = v := by
    linear_combination hq + e * hq2
  exact ((Int.ediv_emod_unique (b := e * 10) (q := v / e / 10) h10).mpr
    ⟨by linarith, by linarith, by linarith⟩).2

theorem bucket_sublist (exp : Int) (s : List Int) (d : Int) :
    (bucket exp s d).Sublist s :=
  List.filter_sublist s

theorem mem_bucket (exp d v : Int) (s : List Int) :
    v ∈ bucket exp s d ↔ v ∈ s ∧ digit exp v = d := by
  simp [bucket]

theorem cntB_le_of_sublist (exp : Int) {u s : List Int} (h : u.Sublist s)
    (d : Int) : cntB exp u d ≤ cntB exp s d :=
  (h.filter _).length_le

theorem cntB_cons (exp v d : Int) (t : List Int) :
    cntB exp (v :: t) d = (if digit exp v = d then 1 else 0) + cntB exp t d := by
  unfold cntB bucket
  rw [List.filter_cons]
  by_cases h : digit exp v = d <;> simp [h, Nat.add_comm]

theorem histFold_spec (exp : Int) :
    ∀ (s : List Int) (c : Int → Int) (d : Int),
      (s.foldl (fun c v => upd c (digit exp v) (c (digit exp v) + 1)) c) d =
        c d + (cntB exp s d : Int)
  | [], c, d => by simp [cntB, bucket]
  | v :: t, c, d => by
    rw [List.foldl_cons, histFold_spec exp t _ d, cntB_cons]
    by_cases h : digit exp v = d
    · unfold upd
      rw [if_pos h, if_pos h.symm, h]
      push_cast
      ring
    · unfold upd
      rw [if_neg h, if_neg fun hh => h hh.symm]
      push_cast
      ring

theorem hist_spec (exp : Int) (s : List Int) (d : Int) :
    hist exp s d = (cntB exp s d : Int) := by
  have h := histFold_spec exp s (fun _ => 0) d
  simpa [hist] using h

theorem runningSums_eq_sumFold (c : Int → Int) : runningSums c = sumFold c 9 := rfl

theorem sumFold_spec : ∀ (t : Nat) (c : Int → Int),
    (∀ j : Nat, j ≤ t → sumFold c t (j : Int) = cumul c j) ∧
      (∀ i : Int, ((t : Int) < i → sumFold c t i = c i)) ∧
      ∀ i : Int, i < 0 → sumFold c t i = c i
  | 0, c => by
    refine ⟨?_, fun i _ => rfl, fun i _ => rfl⟩
    intro j hj
    have hj0 : j = 0 := by omega
    subst hj0
    rfl
  | t + 1, c => by
    obtain ⟨ih1, ih2, ih3⟩ := sumFold_spec t c
    have hstep : sumFold c (t + 1) =
        upd (sumFold c t) ((t : Int) + 1)
          (sumFold c t ((t : Int) + 1) + sumFold c t (t : Int)) := by
      unfold sumFold
      rw [List.range_succ, List.foldl_append]
      rfl
    refine ⟨?_, ?_, ?_⟩
    · intro j hj
      by_cases hj1 : j = t + 1
      · subst hj1
        have hcast : ((t + 1 : Nat) : Int) = (t : Int) + 1 := by push_cast; ring
        rw [hstep, hcast, upd_self, ih2 _ (by omega), ih1 t le_rfl]
        simp only [cumul]
        ring
      · have hjle : j ≤ t := by omega
        rw [hstep, upd_of_ne _ _ _ _ (by omega), ih1 j hjle]
    · intro i hi
      rw [hstep, upd_of_ne _ _ _ _ (by push_cast at hi; omega),
        ih2 i (by push_cast at hi; omega)]
    · intro i hi
      rw [hstep, upd_of_ne _ _ _ _ (by omega), ih3 i hi]

theorem cumul_hist (exp : Int) (s : List Int) : ∀ dN : Nat,
    cumul (hist exp s) dN = (preB exp s dN : Int) + (cntB exp s (dN : Int) : Int)
  | 0 => by simp [cumul, preB, hist_spec]
  | d + 1 => by
    show cumul (hist exp s) d + hist exp s ((d : Int) + 1) = _
    rw [cumul_hist exp s d, hist_spec,
      show preB exp s (d + 1) = preB exp s d + cntB exp s (d : Int) from rfl,
      show ((d + 1 : Nat) : Int) = (d : Int) + 1 by push_cast; ring]
    push_cast
    ring

/-- The running-sum array evaluated at a digit `d < 10` is the number of
elements with digit `≤ d`. -/
theorem countsArray_spec (exp : Int) (s : List Int) (dN : Nat) (hd : dN < 10) :
    runningSums (hist exp s) (dN : Int) =
      (preB exp s dN : Int) + (cntB exp s (dN : Int) : Int) := by
  rw [runningSums_eq_sumFold, (sumFold_spec 9 (hist exp s)).1 dN (by omega),
    cumul_hist]

theorem place_nil (exp : Int) (c out : Int → Int) : place exp [] c out = (c, out) :=
  rfl

theorem place_cons (exp v : Int) (w : List Int) (c out : Int → Int) :
    place exp (v :: w) c out =
      (upd (place exp w c out).1 (digit exp v)
          ((place exp w c out).1 (digit exp v) - 1),
        upd (place exp w c out).2 ((place exp w c out).1 (digit exp v) - 1) v) :=
  rfl

/-- The digit blocks `[preB d, preB d + cntB d)` are pairwise disjoint:
block `a` ends no later than block `b` starts whenever `a < b`. -/
theorem preB_add_cntB_le (exp : Int) (s : List Int) :
    ∀ {a b : Nat}, a < b → preB exp s a + cntB exp s (a : Int) ≤ preB exp s b := by
  intro a b h
  induction b with
  | zero => omega
  | succ b ihb =>
    rcases Nat.lt_succ_iff_lt_or_eq.mp h with h1 | h1
    · calc preB exp s a + cntB exp s (a : Int) ≤ preB exp s b := ihb h1
        _ ≤ preB exp s b + cntB exp s (b : Int) := Nat.le_add_right _ _
        _ = preB exp s (b + 1) := rfl
    · subst h1
      exact le_of_eq rfl

/-- The backward placement loop: after processing a sublist `u` of `s`
(starting from the running-sum counts `C` of the full list `s`), the
counts have dropped by `u`'s bucket sizes, and for each digit `d` the top
`cntB u d` cells of block `d` of the output hold `u`'s bucket `d` in
order. -/
theorem place_inv (exp : Int) (s : List Int) (out0 : Int → Int) (C : Int → Int)
    (hC : ∀ dN : Nat, dN < 10 →
      C (dN : Int) = (preB exp s dN : Int) + (cntB exp s (dN : Int) : Int))
    (hdig : ∀ v ∈ s, 0 ≤ digit exp v ∧ digit exp v < 10) :
    ∀ u : List Int, u.Sublist s →
      (∀ d : Int, (place exp u C out0).1 d = C d - (cntB exp u d : Int)) ∧
      ∀ dN : Nat, dN < 10 → ∀ r : Nat, r < cntB exp u (dN : Int) →
        (place exp u C out0).2
            ((preB exp s dN : Int) + (cntB exp s (dN : Int) : Int)
              - (cntB exp u (dN : Int) : Int) + (r : Int)) =
          (bucket exp u (dN : Int)).getD r 0 := by
  intro u
  induction u with
  | nil =>
    intro _
    refine ⟨fun d => by simp [place_nil, cntB, bucket], ?_⟩
    intro dN _ r hr
    simp [cntB, bucket] at hr
  | cons v w ih =>
    intro hsub
    have hwsub : w.Sublist s := List.sublist_of_cons_sublist hsub
    have hv : v ∈ s := List.Sublist.mem (List.mem_cons_self v w) hsub
    obtain ⟨hv0, hv10⟩ := hdig v hv
    obtain ⟨ih1, ih2⟩ := ih hwsub
    have hdvc : (((digit exp v).toNat : Nat) : Int) = digit exp v :=
      Int.toNat_of_nonneg hv0
    have hdv10 : (digit exp v).toNat < 10 := by omega
    have hkey : ∀ d : Int,
        (place exp (v :: w) C out0).1 d = C d - (cntB exp (v :: w) d : Int) := by
      intro d
      rw [place_cons]
      dsimp only
      by_cases hd : d = digit exp v
      · subst hd
        rw [upd_self, ih1, cntB_cons, if_pos rfl]
        push_cast
        ring
      · rw [upd_of_ne _ _ _ _ hd, ih1, cntB_cons, if_neg fun hh => hd hh.symm]
        push_cast
        ring
    refine ⟨hkey, ?_⟩
    intro dN hdN r hr
    rw [place_cons]
    dsimp only
    by_cases hcase : (dN : Int) = digit exp v
    · have hcnt : cntB exp (v :: w) (dN : Int) = 1 + cntB exp w (dN : Int) := by
        rw [cntB_cons, if_pos hcase.symm]
      have hbucket : bucket exp (v :: w) (dN : Int) = v :: bucket exp w (dN : Int) := by
        unfold bucket
        rw [List.filter_cons, if_pos (by simp [hcase.symm])]
      cases r with
      | zero =>
        have hpos : (preB exp s dN : Int) + (cntB exp s (dN : Int) : Int)
            - (cntB exp (v :: w) (dN : Int) : Int) + ((0 : Nat) : Int) =
            (place exp w C out0).1 (digit exp v) - 1 := by
          rw [ih1, ← hcase, hC dN hdN, hcnt]
          push_cast
          ring
        rw [hpos, upd_self, hbucket]
        simp
      | succ r' =>
        rw [hcnt] at hr
        have hr' : r' < cntB exp w (dN : Int) := by omega
        have hne : (preB exp s dN : Int) + (cntB exp s (dN : Int) : Int)
            - (cntB exp (v :: w) (dN : Int) : Int) + ((r' + 1 : Nat) : Int) ≠
            (place exp w C out0).1 (digit exp v) - 1 := by
          rw [ih1, ← hcase, hC dN hdN, hcnt]
          push_cast
          omega
        rw [upd_of_ne _ _ _ _ hne]
        have hposeq : (preB exp s dN : Int) + (cntB exp s (dN : Int) : Int)
            - (cntB exp (v :: w) (dN : Int) : Int) + ((r' + 1 : Nat) : Int) =
            (preB exp s dN : Int) + (cntB exp s (dN : Int) : Int)
            - (cntB exp w (dN : Int) : Int) + (r' : Int) := by
          rw [hcnt]
          push_cast
          ring
        rw [hposeq, ih2 dN hdN r' hr', hbucket]
        simp
    · have hcnt : cntB exp (v :: w) (dN : Int) = cntB exp w (dN : Int) := by
        rw [cntB_cons, if_neg fun hh => hcase hh.symm]
        exact Nat.zero_add _
      have hbucket : bucket exp (v :: w) (dN : Int) = bucket exp w (dN : Int) := by
        unfold bucket
        rw [List.filter_cons,
          if_neg (by simp only [decide_eq_true_eq]; exact fun hh => hcase hh.symm)]
      have hsubc := cntB_le_of_sublist exp hsub (dN : Int)
      have hsubv := cntB_le_of_sublist exp hsub (digit exp v)
      have hvw : cntB exp (v :: w) (digit exp v) = 1 + cntB exp w (digit exp v) := by
        rw [cntB_cons, if_pos rfl]
      rw [hvw] at hsubv
      have hdd : dN ≠ (digit exp v).toNat := by
        intro h
        exact hcase (by rw [h]; exact hdvc)
      have hne : (preB exp s dN : Int) + (cntB exp s (dN : Int) : Int)
          - (cntB exp (v :: w) (dN : Int) : Int) + (r : Int) ≠
          (place exp w C out0).1 (digit exp v) - 1 := by
        rw [ih1, ← hdvc, hC ((digit exp v).toNat) hdv10]
        rw [← hdvc] at hsubv hvw
        rcases Nat.lt_or_ge dN ((digit exp v).toNat) with hlt | hge
        · have hblk := preB_add_cntB_le exp s hlt
          omega
        · have hlt2 : (digit exp v).toNat < dN := by omega
          have hblk := preB_add_cntB_le exp s hlt2
          omega
      rw [upd_of_ne _ _ _ _ hne]
      rw [hcnt] at hr ⊢
      rw [hbucket]
      exact ih2 dN hdN r hr

/-- Reading a list back cell by cell. -/
theorem range_map_getD {α : Type} (x : α) : ∀ l : List α,
    (List.range l.length).map (fun r => l.getD r x) = l
  | [] => rfl
  | a :: t => by
    rw [List.length_cons, List.range_succ_eq_map, List.map_cons]
    congr 1
    rw [List.map_map]
    have h : ∀ r ∈ List.range t.length,
        ((fun r => (a :: t).getD r x) ∘ Nat.succ) r = t.getD r x := by
      intro r _
      simp [List.getD_cons_succ]
    rw [List.map_congr_left h, range_map_getD x t]

theorem bucketsUpTo_length (exp : Int) (s : List Int) : ∀ K : Nat,
    ((List.range K).flatMap fun d => bucket exp s (d : Int)).length = preB exp s K
  | 0 => rfl
  | K + 1 => by
    rw [List.range_succ, List.flatMap_append, List.length_append,
      bucketsUpTo_length exp s K]
    simp [preB, cntB]

/-- Distributing one new element over the key buckets: it lands at the
front of its own bucket and leaves every other bucket unchanged. -/
theorem flatMap_filter_cons_perm (key : Int → Int) (v : Int) (t : List Int) :
    ∀ D : List Int, D.Nodup → key v ∈ D →
      (D.flatMap fun d => (v :: t).filter fun w => key w = d).Perm
        (v :: D.flatMap fun d => t.filter fun w => key w = d)
  | [], _, hmem => absurd hmem (List.not_mem_nil _)
  | d :: D, hnd, hmem => by
    rw [List.flatMap_cons, List.flatMap_cons]
    by_cases hd : key v = d
    · rw [List.filter_cons, if_pos (by simp [hd])]
      have hrest : (D.flatMap fun d2 => (v :: t).filter fun w => key w = d2) =
          D.flatMap fun d2 => t.filter fun w => key w = d2 := by
        rw [List.flatMap_def, List.flatMap_def]
        congr 1
        apply List.map_congr_left
        intro d2 hd2
        rw [List.filter_cons, if_neg ?hcond]
        case hcond =>
          simp only [decide_eq_true_eq]
          intro hh
          have hdd : d = d2 := hd.symm.trans hh
          exact (List.nodup_cons.mp hnd).1 (hdd ▸ hd2)
      rw [hrest, List.cons_append]
    · rw [List.filter_cons, if_neg (by simp [hd])]
      have hmem2 : key v ∈ D := by
        rcases List.mem_cons.mp hmem with h | h
        · exact absurd h hd
        · exact h
      refine (List.Perm.append_left _
        (flatMap_filter_cons_perm key v t D (List.nodup_cons.mp hnd).2 hmem2)).trans ?_
      exact List.perm_middle

/-- One stable pass distributes a list into its ten digit buckets: the
concatenation is a permutation of the input. -/
theorem buckets_perm (exp : Int) (s : List Int)
    (hdig : ∀ v ∈ s, 0 ≤ digit exp v ∧ digit exp v < 10) :
    (buckets exp s).Perm s := by
  have hrw : ∀ u : List Int, buckets exp u =
      ((List.range 10).map fun (d : Nat) => (d : Int)).flatMap
        fun d => u.filter fun w => digit exp w = d := by
    intro u
    rw [List.flatMap_map]
    rfl
  induction s with
  | nil =>
    rw [hrw]
    have h : (((List.range 10).map fun (d : Nat) => (d : Int)).flatMap
        fun d => ([] : List Int).filter fun w => digit exp w = d) = [] := by
      simp
    rw [h]
  | cons v t ih =>
    have hv := hdig v (List.mem_cons_self v t)
    obtain ⟨hv0, hv10⟩ := hv
    have hmem : digit exp v ∈ (List.range 10).map fun (d : Nat) => (d : Int) := by
      refine List.mem_map.mpr ⟨(digit exp v).toNat, ?_, Int.toNat_of_nonneg hv0⟩
      refine List.mem_range.mpr ?_
      omega
    have hnd : ((List.range 10).map fun (d : Nat) => (d : Int)).Nodup :=
      (List.nodup_range 10).map fun a b hab => by exact_mod_cast hab
    rw [hrw]
    refine (flatMap_filter_cons_perm (digit exp) v t _ hnd hmem).trans ?_
    refine List.Perm.cons v ?_
    rw [← hrw]
    exact ih fun w hw => hdig w (List.mem_cons_of_mem v hw)

/-- A pass on a list sorted by `· % e` produces a list sorted by
`· % (e * 10)`: inside a bucket the low part still decides, across buckets
the digit decides. -/
theorem buckets_pairwise_step (e : Int) (he : 0 < e) (s : List Int)
    (hnn : ∀ v ∈ s, 0 ≤ v)
    (hs : s.Pairwise fun a b => a % e ≤ b % e) :
    (buckets e s).Pairwise fun a b => a % (e * 10) ≤ b % (e * 10) := by
  unfold buckets
  rw [List.flatMap_def, List.pairwise_flatten]
  constructor
  · intro l hl
    obtain ⟨dN, hdN, rfl⟩ := List.mem_map.mp hl
    have hpl : (bucket e s (dN : Int)).Pairwise fun a b => a % e ≤ b % e :=
      List.Pairwise.sublist (bucket_sublist e s (dN : Int)) hs
    refine hpl.imp_of_mem ?_
    intro a b ha hb hab
    obtain ⟨has, hda⟩ := (mem_bucket _ _ _ _).mp ha
    obtain ⟨hbs, hdb⟩ := (mem_bucket _ _ _ _).mp hb
    have ha0 := hnn a has
    have hb0 := hnn b hbs
    rw [emod_mul_ten a e he, emod_mul_ten b e he]
    have hdaeq : a / e % 10 = b / e % 10 := by
      rw [← digit_eq_emod e a ha0 he, ← digit_eq_emod e b hb0 he, hda, hdb]
    rw [hdaeq]
    linarith
  · rw [List.pairwise_map]
    refine (List.pairwise_lt_range 10).imp fun {dN dM} hlt => ?_
    intro x hx y hy
    obtain ⟨hxs, hdx⟩ := (mem_bucket _ _ _ _).mp hx
    obtain ⟨hys, hdy⟩ := (mem_bucket _ _ _ _).mp hy
    have hx0 := hnn x hxs
    have hy0 := hnn y hys
    rw [emod_mul_ten x e he, emod_mul_ten y e he]
    have hdx2 : x / e % 10 = (dN : Int) := by
      rw [← digit_eq_emod e x hx0 he]
      exact hdx
    have hdy2 : y / e % 10 = (dM : Int) := by
      rw [← digit_eq_emod e y hy0 he]
      exact hdy
    rw [hdx2, hdy2]
    have hxe : x % e < e := Int.emod_lt_of_pos x he
    have hye : 0 ≤ y % e := Int.emod_nonneg y (ne_of_gt he)
    have hdl : (dN : Int) + 1 ≤ (dM : Int) := by exact_mod_cast hlt
    have hmul : e * ((dN : Int) + 1) ≤ e * (dM : Int) :=
      mul_le_mul_of_nonneg_left hdl he.le
    linarith

/-- The imperative counting-sort pass equals the bucket concatenation. -/
theorem countSort_eq_buckets (exp : Int) (s : List Int)
    (hdig : ∀ v ∈ s, 0 ≤ digit exp v ∧ digit exp v < 10) :
    countSort s exp = buckets exp s := by
  obtain ⟨h1, h2⟩ := place_inv exp s (fun _ => 0) (runningSums (hist exp s))
    (fun dN hdN => countsArray_spec exp s dN hdN) hdig s (List.Sublist.refl s)
  have hout : ∀ dN : Nat, dN < 10 → ∀ r : Nat, r < cntB exp s (dN : Int) →
      (place exp s (runningSums (hist exp s)) fun _ => 0).2
          ((preB exp s dN : Int) + (r : Int)) =
        (bucket exp s (dN : Int)).getD r 0 := by
    intro dN hdN r hr
    have h := h2 dN hdN r hr
    have heq : (preB exp s dN : Int) + (cntB exp s (dN : Int) : Int)
        - (cntB exp s (dN : Int) : Int) + (r : Int) =
        (preB exp s dN : Int) + (r : Int) := by ring
    rwa [heq] at h
  have hasm : ∀ K : Nat, K ≤ 10 →
      (List.range (preB exp s K)).map
          (fun (i : Nat) =>
            (place exp s (runningSums (hist exp s)) fun _ => 0).2 (i : Int)) =
        (List.range K).flatMap fun d => bucket exp s (d : Int) := by
    intro K
    induction K with
    | zero => intro _; rfl
    | succ K ihK =>
      intro hK
      rw [show preB exp s (K + 1) = preB exp s K + cntB exp s (K : Int) from rfl,
        List.range_add, List.map_append, ihK (by omega), List.range_succ,
        List.flatMap_append]
      congr 1
      rw [List.map_map]
      have hmc : ∀ r ∈ List.range (cntB exp s (K : Int)),
          ((fun (i : Nat) =>
              (place exp s (runningSums (hist exp s)) fun _ => 0).2 (i : Int)) ∘
              fun x => preB exp s K + x) r =
            (bucket exp s (K : Int)).getD r 0 := by
        intro r hr
        have hrlt := List.mem_range.mp hr
        simp only [Function.comp]
        rw [show ((preB exp s K + r : Nat) : Int) =
            (preB exp s K : Int) + (r : Int) by push_cast; ring]
        exact hout K (by omega) r hrlt
      rw [List.map_congr_left hmc,
        show cntB exp s (K : Int) = (bucket exp s (K : Int)).length from rfl,
        range_map_getD]
      simp [List.flatMap_cons]
  have hlen : s.length = preB exp s 10 := by
    rw [← (buckets_perm exp s hdig).length_eq]
    exact bucketsUpTo_length exp s 10
  show (List.range s.length).map
      (fun (i : Nat) =>
        (place exp s (runningSums (hist exp s)) fun _ => 0).2 (i : Int)) =
    buckets exp s
  rw [hlen]
  exact hasm 10 le_rfl

theorem tdiv_pow_pos_iff (m : Int) (k : Nat) (hm : 0 ≤ m) :
    0 < m.tdiv (10 ^ k) ↔ 10 ^ k ≤ m := by
  have hpow : (0 : Int) < 10 ^ k := by positivity
  rw [Int.tdiv_eq_ediv hm hpow.le]
  constructor
  · intro h
    by_contra hlt
    push_neg at hlt
    rw [Int.ediv_eq_zero_of_lt hm hlt] at h
    exact lt_irrefl 0 h
  · intro h
    have h1 : (1 : Int) ≤ m / 10 ^ k :=
      (Int.le_ediv_iff_mul_le hpow).mpr (by linarith)
    linarith

/-- Once the maximum fits below `10 ^ k`, sortedness of the remainders at
`10 ^ k` is sortedness outright. -/
theorem sorted_of_bounded (k : Nat) (m : Int) (s : List Int) (hmk : m < 10 ^ k)
    (hbound : ∀ v ∈ s, 0 ≤ v ∧ v ≤ m)
    (hp : s.Pairwise fun a b => a % 10 ^ k ≤ b % 10 ^ k) :
    List.Sorted (· ≤ ·) s := by
  refine hp.imp_of_mem ?_
  intro a b ha hb hr
  rwa [Int.emod_eq_of_lt (hbound a ha).1 (lt_of_le_of_lt (hbound a ha).2 hmk),
    Int.emod_eq_of_lt (hbound b hb).1 (lt_of_le_of_lt (hbound b hb).2 hmk)] at hr

/-- The pass loop: starting at `exp = 10 ^ k` on a list already sorted by
`· % 10 ^ k`, with `K` more passes available before `10 ^ (k + K)` exceeds
the maximum, the loop returns a sorted permutation. -/
theorem loop_spec : ∀ (K k : Nat) (m : Int) (s : List Int),
    0 ≤ m → m < 10 ^ (k + K) →
    (∀ v ∈ s, 0 ≤ v ∧ v ≤ m) →
    s.Pairwise (fun a b => a % 10 ^ k ≤ b % 10 ^ k) →
    (loop m (10 ^ k) s).Perm s ∧ List.Sorted (· ≤ ·) (loop m (10 ^ k) s) := by
  intro K
  induction K with
  | zero =>
    intro k m s hm hlt hbound hp
    have hg : ¬ 0 < m.tdiv (10 ^ k) := by
      rw [tdiv_pow_pos_iff m k hm]
      push_neg
      simpa using hlt
    rw [loop, dif_neg hg]
    exact ⟨List.Perm.refl s, sorted_of_bounded k m s (by simpa using hlt) hbound hp⟩
  | succ K ih =>
    intro k m s hm hlt hbound hp
    by_cases hg : 0 < m.tdiv (10 ^ k)
    · rw [loop, dif_pos hg]
      have hpow : (0 : Int) < 10 ^ k := by positivity
      have hdig : ∀ v ∈ s, 0 ≤ digit (10 ^ k) v ∧ digit (10 ^ k) v < 10 :=
        fun v hv => ⟨digit_nonneg _ _ (hbound v hv).1 hpow,
          digit_lt_ten _ _ (hbound v hv).1 hpow⟩
      have hcs := countSort_eq_buckets (10 ^ k) s hdig
      have hperm : (countSort s (10 ^ k)).Perm s := by
        rw [hcs]
        exact buckets_perm _ s hdig
      have hp2 : (countSort s (10 ^ k)).Pairwise
          fun a b => a % 10 ^ (k + 1) ≤ b % 10 ^ (k + 1) := by
        have hstep := buckets_pairwise_step (10 ^ k) hpow s
          (fun v hv => (hbound v hv).1) hp
        rw [hcs]
        simp only [← pow_succ] at hstep
        exact hstep
      have hbound2 : ∀ v ∈ countSort s (10 ^ k), 0 ≤ v ∧ v ≤ m :=
        fun v hv => hbound v (hperm.mem_iff.mp hv)
      have hlt2 : m < 10 ^ (k + 1 + K) := by
        have hadd : k + 1 + K = k + (K + 1) := by omega
        rwa [hadd]
      obtain ⟨hP, hS⟩ := ih (k + 1) m (countSort s (10 ^ k)) hm hlt2 hbound2 hp2
      have hexp : (10 : Int) ^ k * 10 = 10 ^ (k + 1) := (pow_succ 10 k).symm
      rw [hexp]
      exact ⟨hP.trans hperm, hS⟩
    · rw [loop, dif_neg hg]
      have hmlt : m < 10 ^ k := by
        by_contra hge
        push_neg at hge
        exact hg ((tdiv_pow_pos_iff m k hm).mpr hge)
      exact ⟨List.Perm.refl s, sorted_of_bounded k m s hmlt hbound hp⟩

theorem foldl_max_bounds (l : List Int) : ∀ a : Int,
    a ≤ l.foldl max a ∧ ∀ v ∈ l, v ≤ l.foldl max a := by
  induction l with
  | nil => exact fun a => ⟨le_refl a, fun v hv => absurd hv (List.not_mem_nil v)⟩
  | cons b t ih =>
    intro a
    obtain ⟨h1, h2⟩ := ih (max a b)
    refine ⟨le_trans (le_max_left a b) h1, ?_⟩
    intro v hv
    rcases List.mem_cons.mp hv with h | h
    · subst h
      exact le_trans (le_max_right a v) h1
    · exact h2 v h

theorem foldl_max_mem (l : List Int) : ∀ a : Int,
    l.foldl max a = a ∨ l.foldl max a ∈ l := by
  induction l with
  | nil => exact fun a => Or.inl rfl
  | cons b t ih =>
    intro a
    rcases ih (max a b) with h | h
    · rcases max_choice a b with hc | hc
      · exact Or.inl (by
          rw [show (b :: t).foldl max a = t.foldl max (max a b) from rfl, h, hc])
      · refine Or.inr ?_
        rw [show (b :: t).foldl max a = t.foldl max (max a b) from rfl, h, hc]
        exact List.mem_cons_self b t
    · exact Or.inr (List.mem_cons_of_mem b h)

/-- `*max_element`: membership and upper-bound facts for `List.max?`. -/
theorem max?_spec (s : List Int) (m : Int) (h : s.max? = some m) :
    m ∈ s ∧ ∀ v ∈ s, v ≤ m := by
  cases s with
  | nil => cases h
  | cons a t =>
    have hm : t.foldl max a = m := by
      simpa [List.max?] using h
    obtain ⟨h1, h2⟩ := foldl_max_bounds t a
    constructor
    · rcases foldl_max_mem t a with hc | hc
      · rw [← hm, hc]
        exact List.mem_cons_self a t
      · rw [← hm]
        exact List.mem_cons_of_mem a hc
    · intro v hv
      rcases List.mem_cons.mp hv with hva | hvt
      · subst hva
        rw [← hm]
        exact h1
      · rw [← hm]
        exact h2 v hvt

end RadixSort

/-- C8 counterexample: on the empty sequence `RadixSort::sort` dereferences
the end iterator returned by `max_element` — undefined behaviour, not a
sorted permutation of the (empty) input. -/
theorem c8_radix_sort_empty_undefined : RadixSort.sort ([] : List Int) = none :=
  rfl

/-- C8 (amended to non-empty inputs): for every non-empty sequence of
non-negative integers, the LSD base-10 radix sort — stable counting-sort
passes on each decimal digit, pass count driven by the maximum element —
returns a non-decreasing permutation of its input. -/
theorem c8_radix_sort_sorts_nonempty (s : List Int) (hne : s ≠ [])
    (hnn : ∀ v ∈ s, 0 ≤ v) :
    ∃ t, RadixSort.sort s = some t ∧ t.Perm s ∧ List.Sorted (· ≤ ·) t := by
  obtain ⟨m, hm⟩ : ∃ m, s.max? = some m := by
    cases h : s.max? with
    | none => exact absurd (List.max?_eq_none_iff.mp h) hne
    | some m => exact ⟨m, rfl⟩
  obtain ⟨hmem, hle⟩ := RadixSort.max?_spec s m hm
  have hm0 : 0 ≤ m := hnn m hmem
  have hK : m < 10 ^ (0 + (m.toNat + 1)) := by
    rw [Nat.zero_add]
    calc m = (m.toNat : Int) := (Int.toNat_of_nonneg hm0).symm
      _ < ((10 ^ (m.toNat + 1) : Nat) : Int) := by
          exact_mod_cast lt_of_lt_of_le (Nat.lt_pow_self (by norm_num) m.toNat)
            (Nat.pow_le_pow_right (by norm_num) (Nat.le_succ _))
      _ = 10 ^ (m.toNat + 1) := by push_cast; ring
  have hp1 : s.Pairwise fun a b => a % 10 ^ (0 : Nat) ≤ b % 10 ^ (0 : Nat) := by
    have hall : ∀ l : List Int, l.Pairwise fun a b : Int => a % 1 ≤ b % 1 := by
      intro l
      induction l with
      | nil => exact List.Pairwise.nil
      | cons a t ih => exact List.Pairwise.cons (fun b _ => by simp [Int.emod_one]) ih
    simpa using hall s
  have hres := RadixSort.loop_spec (m.toNat + 1) 0 m s hm0 hK
    (fun v hv => ⟨hnn v hv, hle v hv⟩) hp1
  rw [show ((10 : Int) ^ (0 : Nat)) = 1 from pow_zero 10] at hres
  refine ⟨RadixSort.loop m 1 s, ?_, hres.1, hres.2⟩
  simp only [RadixSort.sort, hm]

theorem c8_radix_sort_sorts_nonempty_witness :
    (([3, 1, 2] : List Int) ≠ [] ∧ ∀ v ∈ ([3, 1, 2] : List Int), 0 ≤ v) ∧
      ∃ t, RadixSort.sort [3, 1, 2] = some t ∧ t.Perm [3, 1, 2] ∧
        List.Sorted (· ≤ ·) t :=
  ⟨⟨by decide, by decide⟩,
    c8_radix_sort_sorts_nonempty [3, 1, 2] (by decide) (by decide)⟩

end SortTester
